import Mathlib

/-!
Verification of the schema-introspection engine of
django_tenants/postgresql_backend/introspection.py.

The catalog tables (pg_class, pg_namespace, pg_attribute, pg_constraint,
pg_index, pg_am) are embedded as Lean structures; each SQL query of the
source is embedded as a pure function from a catalog value to the list of
rows the query returns, and the Python post-processing of the fetched rows
is embedded statement by statement (dicts become association lists with
Python semantics: lookup of first matching key, assignment replaces in
place or appends).
-/

/-! ## Python dict model (association lists) -/

/-- Lookup in a Python dict modelled as an association list
(first entry with the key wins; entries are unique in dicts built here). -/
def pyLookup {κ α : Type} [DecidableEq κ] (d : List (κ × α)) (k : κ) : Option α :=
  match d with
  | [] => none
  | p :: rest => if p.1 = k then some p.2 else pyLookup rest k

/-- Python dict assignment: replace the entry in place when the key is
present, append otherwise (Python 3.7 dict semantics). -/
def pyInsert {κ α : Type} [DecidableEq κ] (d : List (κ × α)) (k : κ) (v : α) :
    List (κ × α) :=
  if (pyLookup d k).isSome then
    d.map (fun p => if p.1 = k then (k, v) else p)
  else
    d ++ [(k, v)]

theorem pyLookup_append {κ α : Type} [DecidableEq κ] (d e : List (κ × α)) (k : κ) :
    pyLookup (d ++ e) k = ((pyLookup d k).or (pyLookup e k)) := by
  induction d with
  | nil => simp [pyLookup]
  | cons p rest ih =>
    by_cases h : p.1 = k <;> simp [pyLookup, h, ih]

theorem pyLookup_map_replace_ne {κ α : Type} [DecidableEq κ] (d : List (κ × α))
    (k n : κ) (v : α) (hne : n ≠ k) :
    pyLookup (d.map (fun p => if p.1 = k then (k, v) else p)) n = pyLookup d n := by
  induction d with
  | nil => simp [pyLookup]
  | cons p rest ih =>
    by_cases h : p.1 = k
    · simp [pyLookup, h, hne.symm, ih]
    · by_cases h2 : p.1 = n <;> simp [pyLookup, h, h2, hne, ih]

theorem pyLookup_map_replace_eq {κ α : Type} [DecidableEq κ] (d : List (κ × α))
    (k : κ) (v : α) (h : (pyLookup d k).isSome) :
    pyLookup (d.map (fun p => if p.1 = k then (k, v) else p)) k = some v := by
  induction d with
  | nil => simp [pyLookup] at h
  | cons p rest ih =>
    by_cases hp : p.1 = k
    · simp [pyLookup, hp]
    · simp [pyLookup, hp] at h
      simp [pyLookup, hp, ih h]

/-- A key present among a dict's keys has a successful lookup. -/
theorem pyLookup_isSome_of_key_mem {κ α : Type} [DecidableEq κ]
    (d : List (κ × α)) (k : κ) (h : k ∈ d.map Prod.fst) :
    (pyLookup d k).isSome := by
  induction d with
  | nil => simp at h
  | cons p rest ih =>
    by_cases hp : p.1 = k
    · simp [pyLookup, hp]
    · simp only [List.map_cons, List.mem_cons] at h
      rcases h with h | h
      · exact absurd h.symm hp
      · simp only [pyLookup, hp, if_false]
        exact ih h

/-- The key fact about Python dict assignment: it sets the key and leaves
every other key unchanged. -/
theorem pyLookup_pyInsert {κ α : Type} [DecidableEq κ] (d : List (κ × α))
    (k n : κ) (v : α) :
    pyLookup (pyInsert d k v) n = if n = k then some v else pyLookup d n := by
  unfold pyInsert
  by_cases hs : (pyLookup d k).isSome
  · by_cases hn : n = k
    · subst hn; simp [hs, pyLookup_map_replace_eq d n v hs]
    · simp [hs, pyLookup_map_replace_ne d k n v hn, hn]
  · by_cases hn : n = k
    · subst hn
      have hnone : pyLookup d n = none := by
        cases h : pyLookup d n <;> simp [h] at hs ⊢
      simp [hs, pyLookup_append, hnone, pyLookup]
    · have hk : ¬ (k = n) := fun hh => hn hh.symm
      rw [if_neg hs, if_neg hn, pyLookup_append]
      simp [pyLookup, hk]

/-- Membership in a dict after assignment: the entry is either an old one
or the assigned pair. -/
theorem mem_pyInsert {κ α : Type} [DecidableEq κ] (d : List (κ × α))
    (k : κ) (v : α) (p : κ × α) (h : p ∈ pyInsert d k v) :
    p ∈ d ∨ p = (k, v) := by
  unfold pyInsert at h
  by_cases hs : (pyLookup d k).isSome
  · rw [if_pos hs] at h
    rcases List.mem_map.mp h with ⟨q, hq, hrep⟩
    by_cases hk : q.1 = k
    · rw [if_pos hk] at hrep
      exact Or.inr hrep.symm
    · rw [if_neg hk] at hrep
      exact Or.inl (hrep ▸ hq)
  · rw [if_neg hs] at h
    rcases List.mem_append.mp h with h | h
    · exact Or.inl h
    · exact Or.inr (by simpa using h)

theorem keys_nodup_pyInsert {κ α : Type} [DecidableEq κ] (d : List (κ × α))
    (k : κ) (v : α) (h : (d.map Prod.fst).Nodup) :
    ((pyInsert d k v).map Prod.fst).Nodup := by
  unfold pyInsert
  by_cases hs : (pyLookup d k).isSome
  · rw [if_pos hs]
    have hmap : ∀ (l : List (κ × α)),
        (l.map (fun p => if p.1 = k then (k, v) else p)).map Prod.fst
          = l.map Prod.fst := by
      intro l
      induction l with
      | nil => rfl
      | cons p rest ih =>
        simp only [List.map_cons, ih]
        by_cases hp : p.1 = k
        · rw [if_pos hp, hp]
        · rw [if_neg hp]
    rw [hmap]; exact h
  · rw [if_neg hs]
    have hk : k ∉ d.map Prod.fst :=
      fun hmem => hs (pyLookup_isSome_of_key_mem d k hmem)
    simp [List.nodup_append, h, hk]

/-! ## Catalog data model

One structure per catalog table, holding exactly the columns the queries
of the source read. -/

/-- A pg_class row. The visible field embeds the external predicate
pg_table_is_visible(c.oid); relam is the access-method oid used by the
index phase of get_constraints. -/
structure PgClass where
  oid : Nat
  relname : String
  relnamespace : Nat
  relkind : String
  visible : Bool
  relam : Nat
  reloptions : Option (List String)
deriving DecidableEq

/-- A pg_namespace row. -/
structure PgNamespace where
  oid : Nat
  nspname : String
deriving DecidableEq

/-- A pg_attribute row. -/
structure PgAttribute where
  attrelid : Nat
  attnum : Nat
  attname : String
deriving DecidableEq

/-- A pg_constraint row; contype is the one-character type code as the
cursor delivers it ("p", "u", "f", "c"), conkey and confkey the 1-based
attnum arrays. -/
structure PgConstraint where
  conname : String
  conrelid : Nat
  confrelid : Nat
  contype : String
  conkey : List Nat
  confkey : List Nat
deriving DecidableEq

/-- A pg_index row. indexprs holds, when the index is an expression index,
the definition string that pg_get_indexdef(indexrelid) would render (the
source only ever forwards that string). -/
structure PgIndex where
  indrelid : Nat
  indexrelid : Nat
  indkey : List Nat
  indoption : List Nat
  indisunique : Bool
  indisprimary : Bool
  indexprs : Option String
deriving DecidableEq

/-- A pg_am row. -/
structure PgAm where
  oid : Nat
  amname : String
deriving DecidableEq

/-- The catalog a connection sees. -/
structure Catalog where
  classes : List PgClass
  namespaces : List PgNamespace
  attributes : List PgAttribute
  constraints : List PgConstraint
  indexes : List PgIndex
  ams : List PgAm
deriving DecidableEq

/-- The pg_class rows with a given oid (join helper). -/
def classesFor (cat : Catalog) (oid : Nat) : List PgClass :=
  cat.classes.filter (fun c => c.oid = oid)

/-- The pg_attribute rows of relation relid with a given attnum
(join helper). -/
def attrsFor (cat : Catalog) (relid colid : Nat) : List PgAttribute :=
  cat.attributes.filter (fun a => a.attrelid = relid && a.attnum = colid)

/-- SQL LEFT JOIN against a row list: one null row when nothing matches,
the matches otherwise. -/
def leftJoin {α : Type} (xs : List α) : List (Option α) :=
  match xs with
  | [] => [none]
  | _ => xs.map some

/-! ## Table Lister (get_table_list) -/

/-- A fetched row of the get_table_list query: (c.relname, c.relkind). -/
structure TLRow where
  relname : String
  relkind : String
deriving DecidableEq

/-- The rows returned by the get_table_list query: pg_class left-joined to
pg_namespace, restricted to relkind in ('r', 'v', ''), to the namespace
name interpolated into the SQL text, and to visible relations. The WHERE
clause on n.nspname makes the left join behave as an inner join. -/
def tableListRows (cat : Catalog) (schema_name : String) : List TLRow :=
  cat.classes.flatMap (fun c =>
    if (c.relkind = "r" || c.relkind = "v" || c.relkind = "") && c.visible then
      (cat.namespaces.filter
        (fun n => n.oid = c.relnamespace && n.nspname = schema_name)).map
        (fun _ => ⟨c.relname, c.relkind⟩)
    else [])

/-- The kind mapping applied to each row. In the source this is the
Python expression (a dict-get with default None):
  a mapping sending the string r to t and the string v to v,
  and every other relkind to None. -/
def kindMap (k : String) : Option String :=
  pyLookup [("r", "t"), ("v", "v")] k

/-- TableInfo as the host framework defines it: a (name, type) pair whose
type field is the string t for tables and v for views; the source can
also produce None for it. -/
structure TableInfo where
  name : String
  type_ : Option String
deriving DecidableEq

/-- get_table_list: build a TableInfo per fetched row, dropping rows whose
name is in the ignored-tables list (self.ignored_tables, an attribute
inherited from the host framework, passed here as a parameter). -/
def get_table_list (cat : Catalog) (schema_name : String)
    (ignored_tables : List String) : List TableInfo :=
  ((tableListRows cat schema_name).filter
      (fun r => !(ignored_tables.contains r.relname))).map
    (fun r => ⟨r.relname, kindMap r.relkind⟩)

/-- Helper: on a relkind that is neither r nor v, the kind mapping of the
Table Lister yields None (the Python dict-get default). -/
theorem kindMap_eq_none (k : String) (h1 : k ≠ "r") (h2 : k ≠ "v") :
    kindMap k = none := by
  have hr : ¬ ("r" = k) := fun hh => h1 hh.symm
  have hv : ¬ ("v" = k) := fun hh => h2 hh.symm
  simp [kindMap, pyLookup, hr, hv]

/-- Claim C9: for every row the Table Lister query returns, the row's name
appears in the output exactly when it is not in the static ignore-list;
every emitted descriptor is built from a surviving row with its kind given
by the kind mapping (which sends code r to the table code t and code v to
the view code v); and the output lists the surviving rows in the catalog
return order. -/
theorem get_table_list_row_characterization
    (cat : Catalog) (schema_name : String) (ign : List String) :
    ((get_table_list cat schema_name ign).map TableInfo.name
        = ((tableListRows cat schema_name).filter
            (fun r => !(ign.contains r.relname))).map TLRow.relname)
    ∧ (∀ t ∈ get_table_list cat schema_name ign,
        ∃ r ∈ tableListRows cat schema_name,
          ign.contains r.relname = false ∧ t.name = r.relname
            ∧ t.type_ = kindMap r.relkind)
    ∧ kindMap "r" = some "t" ∧ kindMap "v" = some "v"
    ∧ (∀ r ∈ tableListRows cat schema_name,
        ((∃ t ∈ get_table_list cat schema_name ign, t.name = r.relname)
          ↔ ign.contains r.relname = false)) := by
  refine ⟨?_, ?_, by decide, by decide, ?_⟩
  · simp [get_table_list, List.map_map]
  · intro t ht
    rcases List.mem_map.mp ht with ⟨r, hr, hrt⟩
    rcases List.mem_filter.mp hr with ⟨hrows, hkeep⟩
    refine ⟨r, hrows, ?_, ?_, ?_⟩
    · simpa using hkeep
    · rw [← hrt]
    · rw [← hrt]
  · intro r hr
    constructor
    · rintro ⟨t, ht, hname⟩
      rcases List.mem_map.mp ht with ⟨r2, hr2, hrt⟩
      rcases List.mem_filter.mp hr2 with ⟨_, hkeep⟩
      have : r2.relname = r.relname := by rw [← hname, ← hrt]
      rw [← this]
      simpa using hkeep
    · intro hkeep
      exact ⟨⟨r.relname, kindMap r.relkind⟩,
        List.mem_map.mpr ⟨r, List.mem_filter.mpr ⟨hr, by simpa using hkeep⟩, rfl⟩, rfl⟩

/-- A catalog with one namespace s1 containing an ordinary table t1, an
ordinary table ign1 (put on the ignore-list below), and a view v1. -/
def tlDemoCat : Catalog :=
  { classes := [⟨10, "t1", 1, "r", true, 0, none⟩,
                ⟨11, "ign1", 1, "r", true, 0, none⟩,
                ⟨12, "v1", 1, "v", true, 0, none⟩]
    namespaces := [⟨1, "s1"⟩]
    attributes := [], constraints := [], indexes := [], ams := [] }

/-- Witness for C9 at a concrete catalog: the non-ignored table t1 appears
in the Table Lister output. -/
theorem get_table_list_row_characterization_witness :
    (∃ t ∈ get_table_list tlDemoCat "s1" ["ign1"], t.name = "t1")
      ↔ (["ign1"].contains "t1" = false) :=
  (get_table_list_row_characterization tlDemoCat "s1" ["ign1"]).2.2.2.2
    ⟨"t1", "r"⟩ (by decide)

/-- A catalog whose only relation in namespace s1 carries the tolerated
empty-string relkind, which survives the query filter. -/
def emptyKindDemoCat : Catalog :=
  { classes := [⟨10, "t1", 1, "", true, 0, none⟩]
    namespaces := [⟨1, "s1"⟩]
    attributes := [], constraints := [], indexes := [], ams := [] }

/-- Counterexample to claim C4: on a surviving row whose relkind is the
empty string, get_table_list does not fail; it returns a descriptor whose
kind is None (unset), contradicting the claim that such a row triggers a
fatal mapping error and that no descriptor with an unset kind is ever
emitted. -/
theorem get_table_list_empty_kind_counterexample :
    get_table_list emptyKindDemoCat "s1" [] = [⟨"t1", none⟩] := by decide

/-- Claim C4 as amended: for every surviving row whose relkind is neither
r nor v, get_table_list silently emits a descriptor with kind None; no
error is raised and the row is not dropped. -/
theorem get_table_list_unknown_kind_emits_none
    (cat : Catalog) (schema_name : String) (ign : List String)
    (r : TLRow) (hr : r ∈ tableListRows cat schema_name)
    (h1 : r.relkind ≠ "r") (h2 : r.relkind ≠ "v")
    (hkeep : ign.contains r.relname = false) :
    TableInfo.mk r.relname none ∈ get_table_list cat schema_name ign := by
  have hkind : kindMap r.relkind = none := kindMap_eq_none r.relkind h1 h2
  exact List.mem_map.mpr
    ⟨r, List.mem_filter.mpr ⟨hr, by simpa using hkeep⟩, by rw [hkind]⟩

/-- Witness for the amended C4 at a concrete catalog. -/
theorem get_table_list_unknown_kind_emits_none_witness :
    TableInfo.mk "t1" none ∈ get_table_list emptyKindDemoCat "s1" [] :=
  get_table_list_unknown_kind_emits_none emptyKindDemoCat "s1" []
    ⟨"t1", ""⟩ (by decide) (by decide) (by decide) (by decide)

/-! ## Column Describer (get_table_description) -/

/-- A fetched row of the information_schema.columns query:
(column_name, is_nullable, column_default). -/
structure InfoSchemaRow where
  column_name : String
  is_nullable : String
  column_default : Option String
deriving DecidableEq

/-- An entry of the driver-level cursor.description for the one-row
projection: the column name (force_text of line[0], the identity on
strings) followed by the five opaque driver metadata fields line[1:6]. -/
structure DescCol where
  name : String
  type_code : Int
  display_size : Int
  internal_size : Int
  precision : Int
  scale : Int
deriving DecidableEq

/-- The FieldInfo tuple handed back per column. -/
structure FieldInfo where
  name : String
  type_code : Int
  display_size : Int
  internal_size : Int
  precision : Int
  scale : Int
  null_ok : Bool
  default : Option String
deriving DecidableEq

/-- The errors the Python loop of get_table_description can surface.
keyError is the generic dict-lookup failure field_map[...] raises.
inconsistentMetadata is modelled from the spec: the distinct
schema-inconsistency error the spec asks for; it is declared here so the
spec claim can be stated, and the embedded code never produces it. -/
inductive DescribeError
  | keyError (name : String)
  | inconsistentMetadata (name : String)
deriving DecidableEq

/-- The dict comprehension building field_map, keyed case-sensitively by
column name (later duplicate rows overwrite earlier ones). -/
def fieldMap (infoRows : List InfoSchemaRow) :
    List (String × (String × Option String)) :=
  infoRows.foldl
    (fun m r => pyInsert m r.column_name (r.is_nullable, r.column_default)) []

/-- The FieldInfo built for one description entry from its field_map
value: the five driver fields are kept and nullable/default attached,
with null_ok the comparison of is_nullable against the string YES. -/
def mkFieldInfo (line : DescCol) (v : String × Option String) : FieldInfo :=
  ⟨line.name, line.type_code, line.display_size, line.internal_size,
   line.precision, line.scale, v.1 == "YES", v.2⟩

/-- The list comprehension of get_table_description: walk the driver
description in order; a name absent from field_map raises the generic
KeyError, aborting the whole call. -/
def buildFieldInfos (fm : List (String × (String × Option String))) :
    List DescCol → Except DescribeError (List FieldInfo)
  | [] => .ok []
  | line :: rest =>
    match pyLookup fm line.name with
    | none => .error (.keyError line.name)
    | some v => do
        let tail ← buildFieldInfos fm rest
        .ok (mkFieldInfo line v :: tail)

/-- get_table_description: build field_map from the information_schema
rows, then decorate the driver description with nullable and default. -/
def get_table_description (infoRows : List InfoSchemaRow)
    (description : List DescCol) : Except DescribeError (List FieldInfo) :=
  buildFieldInfos (fieldMap infoRows) description

/-- Counterexample to claim C5: with metadata for column a only and a
driver description naming a and c, the call fails with the generic
KeyError for c, not with a distinct inconsistent-metadata error. -/
theorem get_table_description_keyerror_counterexample :
    get_table_description [⟨"a", "YES", none⟩]
        [⟨"a", 1, 0, 0, 0, 0⟩, ⟨"c", 2, 0, 0, 0, 0⟩]
      = .error (.keyError "c") := by rfl

/-- Claim C5 as amended: a column name present in the driver description
but absent from the information_schema lookup makes the whole call fail
with the generic dict KeyError (no distinct inconsistent-metadata error
is raised); no default is substituted and no partial column list is
returned. -/
theorem get_table_description_missing_name_fails
    (infoRows : List InfoSchemaRow) (description : List DescCol)
    (c : DescCol) (hc : c ∈ description)
    (hmiss : pyLookup (fieldMap infoRows) c.name = none) :
    ∃ m, get_table_description infoRows description = .error (.keyError m)
      ∧ pyLookup (fieldMap infoRows) m = none := by
  unfold get_table_description
  induction description with
  | nil => simp at hc
  | cons line rest ih =>
    rcases List.mem_cons.mp hc with hceq | hcrest
    · subst hceq
      exact ⟨c.name, by simp [buildFieldInfos, hmiss], hmiss⟩
    · cases hlk : pyLookup (fieldMap infoRows) line.name with
      | none => exact ⟨line.name, by simp [buildFieldInfos, hlk], hlk⟩
      | some v =>
        rcases ih hcrest with ⟨m, hm, hmnone⟩
        refine ⟨m, ?_, hmnone⟩
        simp only [buildFieldInfos, hlk]
        rw [hm]
        rfl

/-- Witness for the amended C5 at a concrete input: metadata for a only,
driver description naming a and c. -/
theorem get_table_description_missing_name_fails_witness :
    ∃ m, get_table_description [⟨"a", "YES", none⟩]
          [⟨"a", 1, 0, 0, 0, 0⟩, ⟨"c", 2, 0, 0, 0, 0⟩]
        = .error (.keyError m)
      ∧ pyLookup (fieldMap [⟨"a", "YES", none⟩]) m = none :=
  get_table_description_missing_name_fails
    [⟨"a", "YES", none⟩] [⟨"a", 1, 0, 0, 0, 0⟩, ⟨"c", 2, 0, 0, 0, 0⟩]
    ⟨"c", 2, 0, 0, 0, 0⟩ (by simp) (by rfl)

/-- Claim C6: when get_table_description succeeds, the output lists one
FieldInfo per driver-description column in the projection order; each
carries the driver fields of its column, null_ok true exactly when the
matching (case-sensitive, exact-name) information_schema row reports YES,
and default equal to that row's column_default. -/
theorem get_table_description_nullable_default_order
    (infoRows : List InfoSchemaRow) (description : List DescCol)
    (out : List FieldInfo)
    (h : get_table_description infoRows description = .ok out) :
    out.length = description.length ∧
    ∀ (i : Nat) (hi : i < description.length) (hio : i < out.length),
      ∃ v, pyLookup (fieldMap infoRows) (description.get ⟨i, hi⟩).name = some v
        ∧ out.get ⟨i, hio⟩ = mkFieldInfo (description.get ⟨i, hi⟩) v
        ∧ (out.get ⟨i, hio⟩).name = (description.get ⟨i, hi⟩).name
        ∧ ((out.get ⟨i, hio⟩).null_ok = true ↔ v.1 = "YES")
        ∧ (out.get ⟨i, hio⟩).default = v.2 := by
  unfold get_table_description at h
  induction description generalizing out with
  | nil =>
    simp [buildFieldInfos] at h
    subst h
    exact ⟨rfl, by intro i hi; exact absurd hi (by simp)⟩
  | cons line rest ih =>
    simp only [buildFieldInfos] at h
    cases hlk : pyLookup (fieldMap infoRows) line.name with
    | none => simp [hlk] at h
    | some v =>
      simp only [hlk] at h
      cases hrec : buildFieldInfos (fieldMap infoRows) rest with
      | error e => simp [hrec, Bind.bind, Except.bind] at h
      | ok tail =>
        simp only [hrec, Bind.bind, Except.bind, Except.ok.injEq] at h
        subst h
        rcases ih tail hrec with ⟨hlen, hidx⟩
        refine ⟨by simp [hlen], ?_⟩
        intro i hi hio
        cases i with
        | zero =>
          refine ⟨v, hlk, rfl, rfl, ?_, rfl⟩
          simp [mkFieldInfo]
        | succ n =>
          have hn : n < rest.length := by simpa using hi
          have hno : n < tail.length := by simpa using hio
          exact hidx n hn hno

/-- Witness for C6 at a concrete input: two columns in driver order b, a
with nullabilities NO and YES. -/
theorem get_table_description_nullable_default_order_witness :
    ([⟨"b", 1, 2, 3, 4, 5, false, some "0"⟩,
      ⟨"a", 6, 7, 8, 9, 10, true, none⟩] : List FieldInfo).length
        = ([⟨"b", 1, 2, 3, 4, 5⟩, ⟨"a", 6, 7, 8, 9, 10⟩] : List DescCol).length ∧
    ∀ (i : Nat)
      (hi : i < ([⟨"b", 1, 2, 3, 4, 5⟩, ⟨"a", 6, 7, 8, 9, 10⟩] : List DescCol).length)
      (hio : i < ([⟨"b", 1, 2, 3, 4, 5, false, some "0"⟩,
                   ⟨"a", 6, 7, 8, 9, 10, true, none⟩] : List FieldInfo).length),
      ∃ v, pyLookup (fieldMap [⟨"a", "YES", none⟩, ⟨"b", "NO", some "0"⟩])
            (([⟨"b", 1, 2, 3, 4, 5⟩, ⟨"a", 6, 7, 8, 9, 10⟩] : List DescCol).get
              ⟨i, hi⟩).name = some v
        ∧ ([⟨"b", 1, 2, 3, 4, 5, false, some "0"⟩,
            ⟨"a", 6, 7, 8, 9, 10, true, none⟩] : List FieldInfo).get ⟨i, hio⟩
            = mkFieldInfo
              (([⟨"b", 1, 2, 3, 4, 5⟩, ⟨"a", 6, 7, 8, 9, 10⟩] : List DescCol).get
                ⟨i, hi⟩) v
        ∧ (([⟨"b", 1, 2, 3, 4, 5, false, some "0"⟩,
             ⟨"a", 6, 7, 8, 9, 10, true, none⟩] : List FieldInfo).get ⟨i, hio⟩).name
            = (([⟨"b", 1, 2, 3, 4, 5⟩, ⟨"a", 6, 7, 8, 9, 10⟩] : List DescCol).get
                ⟨i, hi⟩).name
        ∧ ((([⟨"b", 1, 2, 3, 4, 5, false, some "0"⟩,
              ⟨"a", 6, 7, 8, 9, 10, true, none⟩] : List FieldInfo).get
                ⟨i, hio⟩).null_ok = true ↔ v.1 = "YES")
        ∧ (([⟨"b", 1, 2, 3, 4, 5, false, some "0"⟩,
             ⟨"a", 6, 7, 8, 9, 10, true, none⟩] : List FieldInfo).get
              ⟨i, hio⟩).default = v.2 :=
  get_table_description_nullable_default_order
    [⟨"a", "YES", none⟩, ⟨"b", "NO", some "0"⟩]
    [⟨"b", 1, 2, 3, 4, 5⟩, ⟨"a", 6, 7, 8, 9, 10⟩]
    [⟨"b", 1, 2, 3, 4, 5, false, some "0"⟩, ⟨"a", 6, 7, 8, 9, 10, true, none⟩]
    (by rfl)

/-! ## Index Resolver (get_indexes) -/

/-- No decimal digit character is a space. -/
theorem digitChar_ne_space (n : Nat) : Nat.digitChar n ≠ ' ' := by
  by_cases h : n < 16
  · have hall : ∀ m, m < 16 → Nat.digitChar m ≠ ' ' := by decide
    exact hall n h
  · unfold Nat.digitChar
    iterate 16 rw [if_neg (by omega)]
    decide

theorem toDigitsCore_no_space (b fuel n : Nat) (acc : List Char)
    (h : ' ' ∉ acc) : ' ' ∉ Nat.toDigitsCore b fuel n acc := by
  induction fuel generalizing n acc with
  | zero => simpa [Nat.toDigitsCore] using h
  | succ f ih =>
    rw [Nat.toDigitsCore]
    split
    · intro hmem
      rcases List.mem_cons.mp hmem with hc | hc
      · exact digitChar_ne_space _ hc.symm
      · exact h hc
    · refine ih _ _ ?_
      intro hmem
      rcases List.mem_cons.mp hmem with hc | hc
      · exact digitChar_ne_space _ hc.symm
      · exact h hc

/-- The decimal rendering of a natural number contains no space. -/
theorem repr_no_space (n : Nat) : ' ' ∉ (Nat.repr n).data := by
  have := toDigitsCore_no_space 10 (n + 1) n [] (by simp)
  simpa [Nat.repr, Nat.toDigits, List.asString] using this

/-- The wire rendering of an indkey int2vector as the driver delivers it
to Python: the decimal digits of each entry, separated by single
spaces. -/
def renderIndkey : List Nat → List Char
  | [] => []
  | [k] => (Nat.repr k).data
  | k :: ks => (Nat.repr k).data ++ ' ' :: renderIndkey ks

/-- The rendering contains a space exactly when the key-position list
names two or more columns. -/
theorem space_mem_renderIndkey (ks : List Nat) :
    ' ' ∈ renderIndkey ks ↔ 2 ≤ ks.length := by
  match ks with
  | [] => simp [renderIndkey]
  | [k] =>
    simp only [renderIndkey, List.length_singleton]
    constructor
    · intro h; exact absurd h (repr_no_space k)
    · omega
  | k :: k2 :: ks => simp [renderIndkey]

/-- A fetched row of the _get_indexes_query:
(attr.attname, idx.indkey, idx.indisunique, idx.indisprimary); indkey
reaches Python as a string of space-separated integers. -/
structure IndexRow where
  attname : String
  indkey : String
  indisunique : Bool
  indisprimary : Bool
deriving DecidableEq

/-- The per-column flags dict value of get_indexes. -/
structure IndexFlags where
  primary_key : Bool
  unique : Bool
deriving DecidableEq

/-- The creation of the entry when a column is first seen:
indexes[row[0]] = with both flags False. -/
def ensureEntry (d : List (String × IndexFlags)) (a : String) :
    List (String × IndexFlags) :=
  if (pyLookup d a).isSome then d else pyInsert d a ⟨false, false⟩

/-- indexes[row[0]] with primary_key set to True. -/
def setPrimary (d : List (String × IndexFlags)) (a : String) :
    List (String × IndexFlags) :=
  pyInsert d a { (pyLookup d a).getD ⟨false, false⟩ with primary_key := true }

/-- indexes[row[0]] with unique set to True. -/
def setUnique (d : List (String × IndexFlags)) (a : String) :
    List (String × IndexFlags) :=
  pyInsert d a { (pyLookup d a).getD ⟨false, false⟩ with unique := true }

/-- One iteration of the get_indexes row loop: skip the row when its
space-separated indkey string names several fields, otherwise create the
entry if absent and OR the two flags in. -/
def stepIdx (d : List (String × IndexFlags)) (r : IndexRow) :
    List (String × IndexFlags) :=
  if r.indkey.data.contains ' ' then d
  else
    let d1 := ensureEntry d r.attname
    let d2 := if r.indisprimary then setPrimary d1 r.attname else d1
    if r.indisunique then setUnique d2 r.attname else d2

/-- get_indexes: fold the row loop over the fetched rows, starting from
an empty dict. -/
def get_indexes (rows : List IndexRow) : List (String × IndexFlags) :=
  rows.foldl stepIdx []

theorem contains_space_iff (l : List Char) :
    l.contains ' ' = true ↔ ' ' ∈ l := by simp

theorem stepIdx_of_multi (d : List (String × IndexFlags)) (r : IndexRow)
    (hm : r.indkey.data.contains ' ' = true) : stepIdx d r = d := by
  unfold stepIdx
  rw [if_pos hm]

theorem pyLookup_ensureEntry_self (d : List (String × IndexFlags)) (a : String) :
    pyLookup (ensureEntry d a) a = some ((pyLookup d a).getD ⟨false, false⟩) := by
  unfold ensureEntry
  by_cases hs : (pyLookup d a).isSome
  · rw [if_pos hs]
    cases hl : pyLookup d a with
    | none => rw [hl] at hs; simp at hs
    | some f => simp
  · rw [if_neg hs, pyLookup_pyInsert]
    have hn : pyLookup d a = none := Option.not_isSome_iff_eq_none.mp hs
    simp [hn]

theorem pyLookup_ensureEntry_ne (d : List (String × IndexFlags)) (a c : String)
    (hne : c ≠ a) : pyLookup (ensureEntry d a) c = pyLookup d c := by
  unfold ensureEntry
  by_cases hs : (pyLookup d a).isSome
  · rw [if_pos hs]
  · rw [if_neg hs, pyLookup_pyInsert, if_neg hne]

theorem pyLookup_stepIdx_self (d : List (String × IndexFlags)) (r : IndexRow)
    (hm : ¬ r.indkey.data.contains ' ' = true) :
    pyLookup (stepIdx d r) r.attname =
      some ⟨((pyLookup d r.attname).getD ⟨false, false⟩).primary_key
              || r.indisprimary,
            ((pyLookup d r.attname).getD ⟨false, false⟩).unique
              || r.indisunique⟩ := by
  have hnm : ' ' ∉ r.indkey.data := fun h => hm ((contains_space_iff _).mpr h)
  simp only [stepIdx, if_neg hm]
  by_cases hp : r.indisprimary = true <;> by_cases hu : r.indisunique = true <;>
    simp [hp, hu, hnm, setPrimary, setUnique, pyLookup_pyInsert,
      pyLookup_ensureEntry_self]

theorem pyLookup_stepIdx_ne (d : List (String × IndexFlags)) (r : IndexRow)
    (c : String) (hne : c ≠ r.attname) :
    pyLookup (stepIdx d r) c = pyLookup d c := by
  by_cases hm : r.indkey.data.contains ' ' = true
  · rw [stepIdx_of_multi d r hm]
  · have hnm : ' ' ∉ r.indkey.data := fun h => hm ((contains_space_iff _).mpr h)
    simp only [stepIdx, if_neg hm]
    by_cases hp : r.indisprimary = true <;> by_cases hu : r.indisunique = true <;>
      simp [hp, hu, hnm, setPrimary, setUnique, pyLookup_pyInsert, if_neg hne,
        pyLookup_ensureEntry_ne d r.attname c hne]

/-- A surviving single-column row for column c. -/
def idxHit (c : String) (r : IndexRow) : Bool :=
  !(r.indkey.data.contains ' ') && (r.attname == c)

/-- A surviving single-column row marking c primary. -/
def idxPrim (c : String) (r : IndexRow) : Bool :=
  idxHit c r && r.indisprimary

/-- A surviving single-column row marking c unique. -/
def idxUniq (c : String) (r : IndexRow) : Bool :=
  idxHit c r && r.indisunique

theorem list_any_false_mono {α : Type} {l : List α} {p q : α → Bool}
    (h : l.any p = false) (himp : ∀ x, q x = true → p x = true) :
    l.any q = false := by
  induction l with
  | nil => rfl
  | cons x xs ih =>
    simp only [List.any_cons, Bool.or_eq_false_iff] at h ⊢
    refine ⟨?_, ih h.2⟩
    cases hq : q x with
    | false => rfl
    | true => exact absurd (himp x hq) (by simp [h.1])

theorem foldl_stepIdx_lookup (rows : List IndexRow)
    (d : List (String × IndexFlags)) (c : String) :
    pyLookup (rows.foldl stepIdx d) c =
      if rows.any (idxHit c) then
        some ⟨((pyLookup d c).getD ⟨false, false⟩).primary_key
                || rows.any (idxPrim c),
              ((pyLookup d c).getD ⟨false, false⟩).unique
                || rows.any (idxUniq c)⟩
      else pyLookup d c := by
  induction rows generalizing d with
  | nil => simp
  | cons r rows ih =>
    rw [List.foldl_cons, ih (stepIdx d r)]
    by_cases hm : r.indkey.data.contains ' ' = true
    · have hmem : ' ' ∈ r.indkey.data := (contains_space_iff _).mp hm
      have hhit : idxHit c r = false := by simp [idxHit, hmem]
      rw [stepIdx_of_multi d r hm]
      simp [List.any_cons, hhit, idxPrim, idxUniq]
    · by_cases hac : r.attname = c
      · subst hac
        have hnm : ' ' ∉ r.indkey.data :=
          fun h => hm ((contains_space_iff _).mpr h)
        have hhit : idxHit r.attname r = true := by simp [idxHit, hnm]
        rw [pyLookup_stepIdx_self d r hm]
        by_cases hA : rows.any (idxHit r.attname) = true
        · simp [hA, List.any_cons, hhit, idxPrim, idxUniq, Bool.or_assoc]
        · have hAf : rows.any (idxHit r.attname) = false := by
            cases h2 : rows.any (idxHit r.attname)
            · rfl
            · exact absurd h2 hA
          have hP : rows.any (idxPrim r.attname) = false :=
            list_any_false_mono hAf
              (fun x hx => by
                simp only [idxPrim, Bool.and_eq_true] at hx
                exact hx.1)
          have hU : rows.any (idxUniq r.attname) = false :=
            list_any_false_mono hAf
              (fun x hx => by
                simp only [idxUniq, Bool.and_eq_true] at hx
                exact hx.1)
          simp [hAf, List.any_cons, hhit, idxPrim, idxUniq, hP, hU]
      · have hne : c ≠ r.attname := fun hh => hac hh.symm
        have hbeq : (r.attname == c) = false := beq_eq_false_iff_ne.mpr hac
        have hhit : idxHit c r = false := by simp [idxHit, hbeq]
        rw [pyLookup_stepIdx_ne d r c hne]
        simp [List.any_cons, hhit, idxPrim, idxUniq]

/-- Claim C7: the Index Resolver's result, characterized per column. A
row whose space-separated key string names two or more columns (exactly
the strings rendered from key lists of length at least two, second
conjunct) never contributes: the entry for a column exists exactly when
some surviving single-column row names it, and its primary_key and
unique flags are the OR of the flags of all such rows, so a column first
seen on a row with both flags false gets the entry with both false. -/
theorem get_indexes_spec (rows : List IndexRow) (c : String) :
    (pyLookup (get_indexes rows) c =
      if rows.any (idxHit c) then
        some ⟨rows.any (idxPrim c), rows.any (idxUniq c)⟩
      else none)
    ∧ (∀ ks : List Nat,
        ((⟨renderIndkey ks⟩ : String).data.contains ' ' = true
          ↔ 2 ≤ ks.length)) := by
  constructor
  · rw [get_indexes, foldl_stepIdx_lookup]
    by_cases hA : rows.any (idxHit c) = true <;> simp [hA, pyLookup]
  · intro ks
    rw [contains_space_iff]
    exact space_mem_renderIndkey ks

/-! ## Relation Resolver (get_relations) -/

/-- Entries of a dict built by folding pyInsert over rows come from the
initial dict or from one of the rows. -/
theorem mem_foldl_pyInsert {κ α β : Type} [DecidableEq κ]
    (f : β → κ) (g : β → α) (rows : List β) (d : List (κ × α)) (p : κ × α)
    (h : p ∈ rows.foldl (fun d r => pyInsert d (f r) (g r)) d) :
    p ∈ d ∨ ∃ r ∈ rows, f r = p.1 ∧ g r = p.2 := by
  induction rows generalizing d with
  | nil => exact Or.inl h
  | cons r rows ih =>
    rw [List.foldl_cons] at h
    rcases ih (pyInsert d (f r) (g r)) h with hd | ⟨r2, hr2, hfg⟩
    · rcases mem_pyInsert d (f r) (g r) p hd with hd | hp
      · exact Or.inl hd
      · exact Or.inr ⟨r, List.mem_cons_self r rows, by simp [hp]⟩
    · exact Or.inr ⟨r2, List.mem_cons_of_mem r hr2, hfg⟩

/-- The attname column produced by the LEFT JOIN of pg_attribute at a
given (possibly absent, hence the Option) 1-based key position value. -/
def attnameAt (cat : Catalog) (relid : Nat) (pos : Option Nat) :
    List (Option String) :=
  (leftJoin (match pos with
    | some p => attrsFor cat relid p
    | none => [])).map (Option.map PgAttribute.attname)

/-- The rows of the get_relations query: one group per foreign-key
constraint (contype f) on the named table in the named namespace; the
referenced class c2 and the attributes a1, a2 are left-joined on the
FIRST positions conkey[1] and confkey[1] of the key arrays; the selected
columns are (c2.relname, a1.attname, a2.attname). The WHERE clause on
c1.relname and n.nspname makes those two left joins behave as inner
joins. -/
def relationRows (cat : Catalog) (nspname relname : String) :
    List (Option String × Option String × Option String) :=
  cat.constraints.flatMap (fun con =>
    if con.contype = "f" then
      (classesFor cat con.conrelid).flatMap (fun c1 =>
        if c1.relname = relname then
          (cat.namespaces.filter
              (fun n => n.oid = c1.relnamespace && n.nspname = nspname)).flatMap
            (fun _ =>
              ((leftJoin (classesFor cat con.confrelid)).map
                  (Option.map PgClass.relname)).flatMap (fun c2n =>
                (attnameAt cat con.conrelid con.conkey.head?).flatMap (fun a1n =>
                  (attnameAt cat con.confrelid con.confkey.head?).map (fun a2n =>
                    (c2n, a1n, a2n)))))
        else [])
    else [])

/-- get_relations: the row loop relations[row[1]] = (row[2], row[0]). -/
def get_relations (cat : Catalog) (nspname relname : String) :
    List (Option String × (Option String × Option String)) :=
  (relationRows cat nspname relname).foldl
    (fun d row => pyInsert d row.2.1 (row.2.2, row.1)) []

/-- Claim C8: every entry of the Relation Resolver comes from the first
key position of a matching foreign-key constraint: its key is the
attribute name at conkey position 1 and its value the attribute name at
confkey position 1 paired with the referenced table name; no entry is
ever derived from a later column of a multi-column foreign key. -/
theorem get_relations_first_pair_only (cat : Catalog) (nspname relname : String)
    (k : Option String) (v : Option String × Option String)
    (h : (k, v) ∈ get_relations cat nspname relname) :
    ∃ con ∈ cat.constraints, con.contype = "f"
      ∧ (∃ c1 ∈ classesFor cat con.conrelid, c1.relname = relname
          ∧ ∃ n ∈ cat.namespaces, n.oid = c1.relnamespace ∧ n.nspname = nspname)
      ∧ k ∈ attnameAt cat con.conrelid con.conkey.head?
      ∧ v.1 ∈ attnameAt cat con.confrelid con.confkey.head?
      ∧ v.2 ∈ (leftJoin (classesFor cat con.confrelid)).map
          (Option.map PgClass.relname) := by
  unfold get_relations at h
  rcases mem_foldl_pyInsert (fun row => row.2.1) (fun row => (row.2.2, row.1))
      (relationRows cat nspname relname) [] (k, v) h with hnil | ⟨row, hrow, hk, hv⟩
  · simp at hnil
  · simp only [relationRows, List.mem_flatMap] at hrow
    rcases hrow with ⟨con, hcon, hrow⟩
    by_cases hf : con.contype = "f"
    · rw [if_pos hf] at hrow
      simp only [List.mem_flatMap] at hrow
      rcases hrow with ⟨c1, hc1, hrow⟩
      by_cases hrel : c1.relname = relname
      · rw [if_pos hrel] at hrow
        simp only [List.mem_flatMap] at hrow
        rcases hrow with ⟨n, hn, hrow⟩
        rcases List.mem_filter.mp hn with ⟨hnmem, hncond⟩
        simp only [Bool.and_eq_true, decide_eq_true_eq] at hncond
        rcases hrow with ⟨c2n, hc2n, hrow⟩
        rcases hrow with ⟨a1n, ha1n, hrow⟩
        rcases List.mem_map.mp hrow with ⟨a2n, ha2n, heq⟩
        have h1 : row.2.1 = a1n := by rw [← heq]
        have h2 : row.2.2 = a2n := by rw [← heq]
        have h3 : row.1 = c2n := by rw [← heq]
        have hk2 : k = row.2.1 := hk.symm
        have hv2 : v = (row.2.2, row.1) := hv.symm
        have hva : v.1 = a2n := by rw [hv2]; exact h2
        have hvc : v.2 = c2n := by rw [hv2]; exact h3
        refine ⟨con, hcon, hf, ⟨c1, hc1, hrel, n, hnmem, hncond.1, hncond.2⟩,
          ?_, ?_, ?_⟩
        · rw [hk2, h1]
          exact ha1n
        · rw [hva]
          exact ha2n
        · rw [hvc]
          exact hc2n
      · rw [if_neg hrel] at hrow
        simp at hrow
    · rw [if_neg hf] at hrow
      simp at hrow

/-- A catalog with a two-column foreign key (a, b) referencing (x, y) of
table tref, from table t in namespace s1. -/
def fkDemoCat : Catalog :=
  { classes := [⟨10, "t", 1, "r", true, 0, none⟩,
                ⟨20, "tref", 1, "r", true, 0, none⟩]
    namespaces := [⟨1, "s1"⟩]
    attributes := [⟨10, 1, "a"⟩, ⟨10, 2, "b"⟩, ⟨20, 1, "x"⟩, ⟨20, 2, "y"⟩]
    constraints := [⟨"fk1", 10, 20, "f", [1, 2], [1, 2]⟩]
    indexes := [], ams := [] }

/-- Witness for C8: on the two-column foreign key (a, b) referencing
(x, y), the single emitted entry maps a to (x, tref) and is traced back
to the first key positions. -/
theorem get_relations_first_pair_only_witness :
    ∃ con ∈ fkDemoCat.constraints, con.contype = "f"
      ∧ (∃ c1 ∈ classesFor fkDemoCat con.conrelid, c1.relname = "t"
          ∧ ∃ n ∈ fkDemoCat.namespaces, n.oid = c1.relnamespace
              ∧ n.nspname = "s1")
      ∧ some "a" ∈ attnameAt fkDemoCat con.conrelid con.conkey.head?
      ∧ (some "x", some "tref").1
          ∈ attnameAt fkDemoCat con.confrelid con.confkey.head?
      ∧ (some "x", some "tref").2
          ∈ (leftJoin (classesFor fkDemoCat con.confrelid)).map
              (Option.map PgClass.relname) :=
  get_relations_first_pair_only fkDemoCat "s1" "t"
    (some "a") (some "x", some "tref") (by decide)

/-! ## Constraint Merger (get_constraints) -/

/-- The parallel unnest of the conkey array with generate_series(1, n):
pairs (colid, arridx) with the ordinal starting at i. -/
def withArridx : List Nat → Nat → List (Nat × Nat)
  | [], _ => []
  | k :: ks, i => (k, i) :: withArridx ks (i + 1)

/-- Stable insertion by ordinal, the building block of the model of
ORDER BY cols.arridx (any stable sort is a faithful model of the SQL
ordering, which leaves ties unspecified). -/
def insertByIdx (x : String × Nat) : List (String × Nat) → List (String × Nat)
  | [] => [x]
  | y :: ys => if x.2 ≤ y.2 then x :: y :: ys else y :: insertByIdx x ys

/-- Stable sort by ordinal, the model of ORDER BY cols.arridx. -/
def sortByIdx : List (String × Nat) → List (String × Nat)
  | [] => []
  | x :: xs => insertByIdx x (sortByIdx xs)

/-- The correlated subquery of the first get_constraints query: unnest
conkey next to generate_series(1, array_length(conkey, 1)), inner-join
pg_attribute on colid = attnum within conrelid, ORDER BY arridx, project
attname. -/
def colsSubquery (cat : Catalog) (c : PgConstraint) : List String :=
  (sortByIdx ((withArridx c.conkey 1).flatMap (fun p =>
    (attrsFor cat c.conrelid p.1).map (fun a => (a.attname, p.2))))).map
    Prod.fst

/-- The scalar subquery producing used_cols: the attribute of confrelid
at confkey[1] joined to its class, rendered relname.attname; NULL when
confkey is empty or nothing matches. attnum is unique within a relation
and oid within pg_class, so the single match is takeable with head?. -/
def usedCols (cat : Catalog) (c : PgConstraint) : Option String :=
  match c.confkey.head? with
  | none => none
  | some p =>
    ((attrsFor cat c.confrelid p).head?).bind (fun fka =>
      ((classesFor cat fka.attrelid).head?).map (fun fkc =>
        fkc.relname ++ "." ++ fka.attname))

/-- A fetched row of the first (constraint) get_constraints query:
(conname, ordered column-name array, contype, used_cols, reloptions). -/
structure PhaseARow where
  conname : String
  columns : List String
  contype : String
  used_cols : Option String
  options : Option (List String)
deriving DecidableEq

/-- The rows of the constraint query: pg_constraint joined to its owning
class and namespace, filtered on the bound nspname and relname
parameters. -/
def phaseARows (cat : Catalog) (nspname relname : String) : List PhaseARow :=
  cat.constraints.flatMap (fun c =>
    (classesFor cat c.conrelid).flatMap (fun cl =>
      if cl.relname = relname then
        (cat.namespaces.filter
            (fun ns => ns.oid = cl.relnamespace && ns.nspname = nspname)).map
          (fun _ => ⟨c.conname, colsSubquery cat c, c.contype,
                     usedCols cat c, cl.reloptions⟩)
      else []))

/-- The unified per-name value of the constraints dict. The source's
constraint-phase dict carries no orders and no type key, so those two
fields are none for constraint-derived entries and some for
index-derived ones; the source's index-phase columns can contain NULLs
(expression members), hence the Option elements, which the constraint
phase (an inner join, never null) wraps with some. -/
structure ConstraintInfo where
  columns : List (Option String)
  orders : Option (List (Option String))
  primary_key : Bool
  unique : Bool
  foreign_key : Option (List String)
  check : Bool
  index : Bool
  type_ : Option String
  definition : Option String
  options : Option (List String)
deriving DecidableEq

/-- Python str.split(sep, 1): split on the first occurrence only. -/
def pySplit1 (s : String) : List String :=
  match s.splitOn "." with
  | [] => [s]
  | [x] => [x]
  | x :: rest => [x, String.intercalate "." rest]

/-- The error the constraint loop can raise: used_cols.split on a NULL
used_cols for a foreign-key row is an AttributeError on None. -/
inductive ConstraintError
  | attributeError
deriving DecidableEq

/-- tuple(used_cols.split(chr 46, 1)) if kind is f else None. -/
def mkForeignKey (kind : String) (used_cols : Option String) :
    Except ConstraintError (Option (List String)) :=
  if kind = "f" then
    match used_cols with
    | some s => .ok (some (pySplit1 s))
    | none => .error .attributeError
  else .ok none

/-- The dict value assigned per constraint row. -/
def phaseAEntry (r : PhaseARow) : Except ConstraintError ConstraintInfo := do
  let fk ← mkForeignKey r.contype r.used_cols
  pure { columns := r.columns.map some
         orders := none
         primary_key := r.contype == "p"
         unique := (r.contype == "p") || (r.contype == "u")
         foreign_key := fk
         check := r.contype == "c"
         index := false
         type_ := none
         definition := none
         options := r.options }

/-- The constraint loop of get_constraints: its execute binds the
nspname parameter to the string literal public, not to the connection's
active schema_name. -/
def phaseADict (cat : Catalog) (table_name : String) :
    Except ConstraintError (List (String × ConstraintInfo)) := do
  let pairs ← (phaseARows cat "public" table_name).mapM
    (fun r => do
      let e ← phaseAEntry r
      pure (r.conname, e))
  pure (pairs.foldl (fun d p => pyInsert d p.1 p.2) [])

/-- A fetched row of the second (index) get_constraints query, after the
GROUP BY: (indexname, aggregated column names, indisunique, indisprimary,
aggregated orderings, amname, exprdef, attoptions). -/
structure PhaseBRow where
  indexname : String
  columns : List (Option String)
  indisunique : Bool
  indisprimary : Bool
  orders : List (Option String)
  amname : Option String
  exprdef : Option String
  options : Option (List String)
deriving DecidableEq

/-- The rows of the index query. indkey and indoption are unnested in
parallel (equal-length arrays, modelled by zip); the row_number ordinal
rnum makes the array_agg aggregates keep that unnest order, so the
aggregates are the per-key maps below. The left-joined pg_attribute can
miss (attnum 0 for expression members), giving a none element; the
left-joined pg_am gives the optional amname; index names are unique in a
namespace, so the GROUP BY on (indexname, indisunique, indisprimary,
amname, exprdef, attoptions) groups exactly the rows of one pg_index
entry; the join on indexrelid always resolves in a well-formed catalog
and is written as an inner join here. The query filters on c.relname
only: no namespace condition at all. -/
def phaseBRows (cat : Catalog) (relname : String) : List PhaseBRow :=
  cat.indexes.flatMap (fun i =>
    (classesFor cat i.indrelid).flatMap (fun c =>
      if c.relname = relname then
        (classesFor cat i.indexrelid).map (fun c2 =>
          let amname := ((cat.ams.filter (fun a => a.oid = c2.relam)).head?).map
            PgAm.amname
          { indexname := c2.relname
            columns := (i.indkey.zip i.indoption).map (fun p =>
              ((attrsFor cat i.indrelid p.1).head?).map PgAttribute.attname)
            indisunique := i.indisunique
            indisprimary := i.indisprimary
            orders := (i.indkey.zip i.indoption).map (fun p =>
              if amname = some "btree" then
                some (if p.2 % 2 = 1 then "DESC" else "ASC")
              else none)
            amname := amname
            exprdef := i.indexprs
            options := c2.reloptions })
      else []))

/-- Index.suffix of the host framework (django.db.models.indexes.Index),
the normalized type string recorded for the default btree method. -/
def indexSuffix : String := "idx"

/-- The dict value assigned per index row: [None] aggregates (expression
index with no direct column references) become empty lists. -/
def phaseBEntry (r : PhaseBRow) : ConstraintInfo :=
  { columns := if r.columns = [none] then [] else r.columns
    orders := some (if r.orders = [none] then [] else r.orders)
    primary_key := r.indisprimary
    unique := r.indisunique
    foreign_key := none
    check := false
    index := true
    type_ := if r.amname = some "btree" then some indexSuffix else r.amname
    definition := r.exprdef
    options := r.options }

/-- The index loop body: insert only when the name is not yet a key. -/
def stepB (d : List (String × ConstraintInfo)) (r : PhaseBRow) :
    List (String × ConstraintInfo) :=
  if (pyLookup d r.indexname).isSome then d
  else pyInsert d r.indexname (phaseBEntry r)

/-- get_constraints: constraint phase first (namespace parameter bound
to the literal public, with schema_name, the connection's active
namespace that every other operation uses, in scope but unused), then
the index phase inserting under absent names only. -/
def get_constraints (cat : Catalog) (schema_name table_name : String) :
    Except ConstraintError (List (String × ConstraintInfo)) := do
  let d ← phaseADict cat table_name
  pure ((phaseBRows cat table_name).foldl stepB d)

/-- A catalog whose namespace s1 holds a table t with a single-column
foreign key to tref; used to exhibit namespace-sensitivity of the other
operations. -/
def nsDemoCat : Catalog :=
  { classes := [⟨10, "t", 1, "r", true, 0, none⟩,
                ⟨20, "tref", 1, "r", true, 0, none⟩]
    namespaces := [⟨1, "s1"⟩]
    attributes := [⟨10, 1, "a"⟩, ⟨20, 1, "x"⟩]
    constraints := [⟨"fk", 10, 20, "f", [1], [1]⟩]
    indexes := [], ams := [] }

/-- Claim C3: get_constraints queries with its namespace parameter bound
to the literal public, so for every catalog, table name and pair of
active-namespace values its result is identical, whereas the other
operations (here the Relation Resolver and the Table Lister) do depend
on the active namespace. -/
theorem get_constraints_namespace_independent
    (cat : Catalog) (t s1 s2 : String) :
    (get_constraints cat s1 t = get_constraints cat s2 t)
    ∧ (∃ cat2 t2 n1 n2, get_relations cat2 n1 t2 ≠ get_relations cat2 n2 t2)
    ∧ (∃ cat3 n3 n4, get_table_list cat3 n3 [] ≠ get_table_list cat3 n4 []) :=
  ⟨rfl,
   ⟨nsDemoCat, "t", "s1", "s2", by decide⟩,
   ⟨nsDemoCat, "s1", "s2", by decide⟩⟩

/-- Claim C10: an index-derived entry whose aggregated column and
ordering lists came back as the single-element list holding one NULL (an
expression index with no direct column references) gets empty columns
and orders lists, never a list holding None. -/
theorem phaseBEntry_expression_index (r : PhaseBRow)
    (hc : r.columns = [none]) (ho : r.orders = [none]) :
    (phaseBEntry r).columns = [] ∧ (phaseBEntry r).orders = some [] := by
  simp [phaseBEntry, hc, ho]

/-- Witness for C10 at a concrete expression-index row. -/
theorem phaseBEntry_expression_index_witness :
    (phaseBEntry ⟨"expr_idx", [none], false, false, [none], some "btree",
        some "CREATE INDEX expr_idx ON t1 (lower(a))", none⟩).columns = []
    ∧ (phaseBEntry ⟨"expr_idx", [none], false, false, [none], some "btree",
        some "CREATE INDEX expr_idx ON t1 (lower(a))", none⟩).orders
      = some [] :=
  phaseBEntry_expression_index _ rfl rfl

theorem pairwise_trivial {α : Type} (l : List α) {R : α → α → Prop}
    (h : ∀ a b, R a b) : l.Pairwise R := by
  induction l with
  | nil => exact List.Pairwise.nil
  | cons x xs ih => exact List.Pairwise.cons (fun b _ => h x b) ih

theorem insertByIdx_of_le (x : String × Nat) (l : List (String × Nat))
    (hle : ∀ y ∈ l, x.2 ≤ y.2) : insertByIdx x l = x :: l := by
  cases l with
  | nil => rfl
  | cons y ys =>
    unfold insertByIdx
    rw [if_pos (hle y (List.mem_cons_self y ys))]

/-- The stable sort is the identity on a list already ordered by the
ordinal. -/
theorem sortByIdx_sorted_id (l : List (String × Nat))
    (h : l.Pairwise (fun a b => a.2 ≤ b.2)) : sortByIdx l = l := by
  induction l with
  | nil => rfl
  | cons x xs ih =>
    unfold sortByIdx
    rw [ih (List.Pairwise.of_cons h),
        insertByIdx_of_le x xs (List.pairwise_cons.mp h).1]

theorem withArridx_ge (ks : List Nat) (i : Nat) :
    ∀ p ∈ withArridx ks i, i ≤ p.2 := by
  induction ks generalizing i with
  | nil => intro p hp; simp [withArridx] at hp
  | cons k ks ih =>
    intro p hp
    rcases List.mem_cons.mp hp with hp | hp
    · subst hp; exact Nat.le_refl i
    · exact Nat.le_of_succ_le (ih (i + 1) p hp)

/-- The join output is already ordered by the ordinal: the unnest pairs
carry strictly increasing ordinals and the attribute join preserves each
pair's ordinal. -/
theorem joined_pairwise (cat : Catalog) (relid : Nat) (ks : List Nat) (i : Nat) :
    ((withArridx ks i).flatMap (fun p =>
      (attrsFor cat relid p.1).map (fun a => (a.attname, p.2)))).Pairwise
      (fun x y => x.2 ≤ y.2) := by
  induction ks generalizing i with
  | nil => exact List.Pairwise.nil
  | cons k ks ih =>
    rw [show withArridx (k :: ks) i = (k, i) :: withArridx ks (i + 1) from rfl,
        List.flatMap_cons]
    apply List.pairwise_append.mpr
    refine ⟨?_, ih (i + 1), ?_⟩
    · rw [List.pairwise_map]
      exact pairwise_trivial _ (fun a b => Nat.le_refl i)
    · intro x hx y hy
      rcases List.mem_map.mp hx with ⟨a, ha, hax⟩
      rcases List.mem_flatMap.mp hy with ⟨p, hp, hyp⟩
      rcases List.mem_map.mp hyp with ⟨b, hb, hby⟩
      have h1 : x.2 = i := by rw [← hax]
      have h2 : i + 1 ≤ p.2 := withArridx_ge ks (i + 1) p hp
      have h3 : y.2 = p.2 := by rw [← hby]
      rw [h1, h3]
      omega

theorem joined_map_fst (cat : Catalog) (relid : Nat) (ks : List Nat) (i : Nat) :
    ((withArridx ks i).flatMap (fun p =>
      (attrsFor cat relid p.1).map (fun a => (a.attname, p.2)))).map Prod.fst
    = ks.flatMap (fun colid =>
        (attrsFor cat relid colid).map PgAttribute.attname) := by
  induction ks generalizing i with
  | nil => rfl
  | cons k ks ih =>
    rw [show withArridx (k :: ks) i = (k, i) :: withArridx ks (i + 1) from rfl,
        List.flatMap_cons, List.flatMap_cons, List.map_append, ih (i + 1),
        List.map_map]
    rfl

/-- A catalog holding, in the namespace named public, a table t1 whose
primary key is declared over (b, a) in that order: the attribute storage
order is a (attnum 1) then b (attnum 2), while conkey is [2, 1]. -/
def pkOrderDemoCat : Catalog :=
  { classes := [⟨10, "t1", 1, "r", true, 0, none⟩]
    namespaces := [⟨1, "public"⟩]
    attributes := [⟨10, 1, "a"⟩, ⟨10, 2, "b"⟩]
    constraints := [⟨"t1_pk", 10, 0, "p", [2, 1], []⟩]
    indexes := [], ams := [] }

/-- Claim C1: the ordered-column reconstruction of the constraint query
returns, for every constraint, the attribute names of its key-column ids
taken in key-array (definition) order, never catalog storage order;
every constraint row carries exactly that list; and on the concrete
primary key declared over (b, a) the merged entry's columns are exactly
b then a. -/
theorem get_constraints_key_array_order (cat : Catalog) (c : PgConstraint) :
    (colsSubquery cat c
      = c.conkey.flatMap (fun colid =>
          (attrsFor cat c.conrelid colid).map PgAttribute.attname))
    ∧ (∀ nspname relname r, r ∈ phaseARows cat nspname relname →
        ∃ c2 ∈ cat.constraints, r.conname = c2.conname
          ∧ r.columns = colsSubquery cat c2)
    ∧ (∃ d, get_constraints pkOrderDemoCat "tenant1" "t1" = .ok d
        ∧ (pyLookup d "t1_pk").map ConstraintInfo.columns
          = some [some "b", some "a"]) := by
  refine ⟨?_, ?_, ?_⟩
  · unfold colsSubquery
    rw [sortByIdx_sorted_id _ (joined_pairwise cat c.conrelid c.conkey 1),
        joined_map_fst]
  · intro nspname relname r hr
    simp only [phaseARows, List.mem_flatMap] at hr
    rcases hr with ⟨c2, hc2, cl, hcl, hr⟩
    by_cases hrel : cl.relname = relname
    · rw [if_pos hrel] at hr
      rcases List.mem_map.mp hr with ⟨n, hn, heq⟩
      exact ⟨c2, hc2, by rw [← heq], by rw [← heq]⟩
    · rw [if_neg hrel] at hr
      simp at hr
  · exact ⟨_, rfl, by decide⟩

/-- A successful lookup in a dict folded up from pyInsert comes from one
of the inserted pairs or from the initial dict. -/
theorem pyLookup_foldl_pyInsert_mem {κ α : Type} [DecidableEq κ]
    (pairs : List (κ × α)) (d : List (κ × α)) (n : κ) (e : α)
    (h : pyLookup (pairs.foldl (fun d p => pyInsert d p.1 p.2) d) n = some e) :
    (n, e) ∈ pairs ∨ pyLookup d n = some e := by
  induction pairs generalizing d with
  | nil => exact Or.inr h
  | cons p ps ih =>
    rw [List.foldl_cons] at h
    rcases ih (pyInsert d p.1 p.2) h with hmem | hlk
    · exact Or.inl (List.mem_cons_of_mem p hmem)
    · rw [pyLookup_pyInsert] at hlk
      by_cases hn : n = p.1
      · rw [if_pos hn] at hlk
        have he : e = p.2 := (Option.some_inj.mp hlk).symm
        subst hn
        subst he
        exact Or.inl (by simp)
      · rw [if_neg hn] at hlk
        exact Or.inr hlk

theorem keys_nodup_foldl_pyInsert {κ α : Type} [DecidableEq κ]
    (pairs : List (κ × α)) (d : List (κ × α))
    (h : (d.map Prod.fst).Nodup) :
    (((pairs.foldl (fun d p => pyInsert d p.1 p.2) d)).map Prod.fst).Nodup := by
  induction pairs generalizing d with
  | nil => exact h
  | cons p ps ih =>
    rw [List.foldl_cons]
    exact ih _ (keys_nodup_pyInsert d p.1 p.2 h)

/-- A successful mapM in the Except monad maps each output element back
to an input on which the function succeeded with it. -/
theorem except_mapM_mem {ε β γ : Type} (f : β → Except ε γ) (rows : List β)
    (out : List γ) (h : rows.mapM f = .ok out) (y : γ) (hy : y ∈ out) :
    ∃ r ∈ rows, f r = .ok y := by
  induction rows generalizing out with
  | nil =>
    simp only [List.mapM_nil, pure] at h
    cases h
    simp at hy
  | cons r rows ih =>
    rw [List.mapM_cons] at h
    cases hf : f r with
    | error e => rw [hf] at h; simp [Bind.bind, Except.bind] at h
    | ok x =>
      rw [hf] at h
      cases hrest : rows.mapM f with
      | error e =>
        rw [hrest] at h
        simp [Bind.bind, Except.bind] at h
      | ok xs =>
        rw [hrest] at h
        simp only [Bind.bind, Except.bind, pure, Except.pure,
          Except.ok.injEq] at h
        subst h
        rcases List.mem_cons.mp hy with hy | hy
        · exact ⟨r, List.mem_cons_self r rows, by rw [hf, hy]⟩
        · rcases ih xs hrest hy with ⟨r2, hr2, hr2y⟩
          exact ⟨r2, List.mem_cons_of_mem r hr2, hr2y⟩

/-- The index loop never touches a name that already has an entry. -/
theorem pyLookup_stepB_of_isSome (d : List (String × ConstraintInfo))
    (r : PhaseBRow) (n : String) (h : (pyLookup d n).isSome) :
    pyLookup (stepB d r) n = pyLookup d n := by
  unfold stepB
  by_cases hc : (pyLookup d r.indexname).isSome
  · rw [if_pos hc]
  · rw [if_neg hc, pyLookup_pyInsert]
    by_cases hn : n = r.indexname
    · subst hn
      exact absurd h hc
    · rw [if_neg hn]

theorem pyLookup_foldl_stepB_of_isSome (rows : List PhaseBRow)
    (d : List (String × ConstraintInfo)) (n : String)
    (h : (pyLookup d n).isSome) :
    pyLookup (rows.foldl stepB d) n = pyLookup d n := by
  induction rows generalizing d with
  | nil => rfl
  | cons r rows ih =>
    rw [List.foldl_cons]
    have hstep := pyLookup_stepB_of_isSome d r n h
    rw [ih (stepB d r) (by rw [hstep]; exact h), hstep]

/-- An entry found after the index loop is either an entry of the
incoming dict or a fresh index-derived entry under a previously absent
name. -/
theorem pyLookup_foldl_stepB_cases (rows : List PhaseBRow)
    (d : List (String × ConstraintInfo)) (n : String) (e : ConstraintInfo)
    (h : pyLookup (rows.foldl stepB d) n = some e) :
    pyLookup d n = some e
      ∨ (pyLookup d n = none
          ∧ ∃ r ∈ rows, r.indexname = n ∧ e = phaseBEntry r) := by
  induction rows generalizing d with
  | nil => exact Or.inl h
  | cons r rows ih =>
    rw [List.foldl_cons] at h
    rcases ih (stepB d r) h with hlk | ⟨hnone, r2, hr2, hr2n, hr2e⟩
    · unfold stepB at hlk
      by_cases hc : (pyLookup d r.indexname).isSome
      · rw [if_pos hc] at hlk
        exact Or.inl hlk
      · rw [if_neg hc, pyLookup_pyInsert] at hlk
        by_cases hn : n = r.indexname
        · rw [if_pos hn] at hlk
          subst hn
          refine Or.inr ⟨Option.not_isSome_iff_eq_none.mp hc,
            r, List.mem_cons_self r rows, rfl, (Option.some_inj.mp hlk).symm⟩
        · rw [if_neg hn] at hlk
          exact Or.inl hlk
    · have hdn : pyLookup d n = none := by
        unfold stepB at hnone
        by_cases hc : (pyLookup d r.indexname).isSome
        · rw [if_pos hc] at hnone
          exact hnone
        · rw [if_neg hc, pyLookup_pyInsert] at hnone
          by_cases hn : n = r.indexname
          · rw [if_pos hn] at hnone
            cases hnone
          · rw [if_neg hn] at hnone
            exact hnone
      exact Or.inr ⟨hdn, r2, List.mem_cons_of_mem r hr2, hr2n, hr2e⟩

theorem keys_nodup_foldl_stepB (rows : List PhaseBRow)
    (d : List (String × ConstraintInfo)) (h : (d.map Prod.fst).Nodup) :
    (((rows.foldl stepB d)).map Prod.fst).Nodup := by
  induction rows generalizing d with
  | nil => exact h
  | cons r rows ih =>
    rw [List.foldl_cons]
    refine ih (stepB d r) ?_
    unfold stepB
    by_cases hc : (pyLookup d r.indexname).isSome
    · rw [if_pos hc]; exact h
    · rw [if_neg hc]
      exact keys_nodup_pyInsert d r.indexname (phaseBEntry r) h

/-- A constraint-derived entry has index false, and its foreign_key is
set only when the constraint's own type code is f. -/
theorem phaseAEntry_ok_props (r : PhaseARow) (e : ConstraintInfo)
    (h : phaseAEntry r = .ok e) :
    e.index = false ∧ (e.foreign_key ≠ none → r.contype = "f") := by
  unfold phaseAEntry mkForeignKey at h
  by_cases hf : r.contype = "f"
  · rw [if_pos hf] at h
    cases hu : r.used_cols with
    | none => rw [hu] at h; simp [Bind.bind, Except.bind] at h
    | some s =>
      rw [hu] at h
      simp only [Bind.bind, Except.bind, pure, Except.pure,
        Except.ok.injEq] at h
      subst h
      exact ⟨rfl, fun _ => hf⟩
  · rw [if_neg hf] at h
    simp only [Bind.bind, Except.bind, pure, Except.pure,
      Except.ok.injEq] at h
    subst h
    exact ⟨rfl, fun hfk => absurd rfl hfk⟩

/-- Claim C2: merging keeps every name unique, inserts all
constraint-derived entries first, and adds an index-derived entry only
under a name no constraint holds; a name with a constraint entry keeps
exactly that entry, which has constraint semantics: index false and
foreign_key set only when the constraint itself is a foreign key. -/
theorem get_constraints_merge_precedence (cat : Catalog) (s t : String)
    (d0 : List (String × ConstraintInfo))
    (hA : phaseADict cat t = .ok d0) :
    ∃ d, get_constraints cat s t = .ok d
      ∧ (d.map Prod.fst).Nodup
      ∧ (∀ n, (pyLookup d0 n).isSome → pyLookup d n = pyLookup d0 n)
      ∧ (∀ n e, pyLookup d n = some e →
          pyLookup d0 n = some e
            ∨ (pyLookup d0 n = none
                ∧ ∃ r ∈ phaseBRows cat t, r.indexname = n
                    ∧ e = phaseBEntry r))
      ∧ (∀ n e, pyLookup d0 n = some e →
          e.index = false ∧ (e.foreign_key ≠ none →
            ∃ r ∈ phaseARows cat "public" t, r.conname = n
              ∧ r.contype = "f")) := by
  have hpairs : ∃ pairs, (phaseARows cat "public" t).mapM
      (fun r => do
        let e ← phaseAEntry r
        pure (r.conname, e)) = .ok pairs
      ∧ d0 = pairs.foldl (fun d p => pyInsert d p.1 p.2) [] := by
    unfold phaseADict at hA
    cases hm : (phaseARows cat "public" t).mapM
        (fun r => do
          let e ← phaseAEntry r
          pure (r.conname, e)) with
    | error er => rw [hm] at hA; simp [Bind.bind, Except.bind] at hA
    | ok pairs =>
      rw [hm] at hA
      simp only [Bind.bind, Except.bind, pure, Except.pure,
        Except.ok.injEq] at hA
      exact ⟨pairs, rfl, hA.symm⟩
  rcases hpairs with ⟨pairs, hm, hd0⟩
  refine ⟨(phaseBRows cat t).foldl stepB d0, ?_, ?_, ?_, ?_, ?_⟩
  · unfold get_constraints
    rw [hA]
    rfl
  · refine keys_nodup_foldl_stepB _ d0 ?_
    rw [hd0]
    exact keys_nodup_foldl_pyInsert pairs [] (by simp)
  · intro n hn
    exact pyLookup_foldl_stepB_of_isSome _ d0 n hn
  · intro n e h
    exact pyLookup_foldl_stepB_cases _ d0 n e h
  · intro n e h
    rw [hd0] at h
    rcases pyLookup_foldl_pyInsert_mem pairs [] n e h with hmem | hnil
    · rcases except_mapM_mem _ _ pairs hm (n, e) hmem with ⟨r, hr, hre⟩
      cases hae : phaseAEntry r with
      | error er =>
        simp only [hae, Bind.bind, Except.bind] at hre
        cases hre
      | ok e2 =>
        simp only [hae, Bind.bind, Except.bind, pure, Except.pure,
          Except.ok.injEq, Prod.mk.injEq] at hre
        obtain ⟨hrn, hre2⟩ := hre
        subst hre2
        have hprops := phaseAEntry_ok_props r e2 hae
        exact ⟨hprops.1, fun hfk => ⟨r, hr, hrn, hprops.2 hfk⟩⟩
    · simp [pyLookup] at hnil

/-- A catalog holding, in the namespace named public, a table t1 with a
unique constraint named uq_1 whose backing index is also discoverable
under the name uq_1. -/
def uqDemoCat : Catalog :=
  { classes := [⟨10, "t1", 1, "r", true, 0, none⟩,
                ⟨30, "uq_1", 1, "i", true, 5, none⟩]
    namespaces := [⟨1, "public"⟩]
    attributes := [⟨10, 1, "a"⟩]
    constraints := [⟨"uq_1", 10, 0, "u", [1], []⟩]
    indexes := [⟨10, 30, [1], [0], true, false, none⟩]
    ams := [⟨5, "btree"⟩] }

/-- The constraint-phase entry the catalog above produces for uq_1. -/
def uqPhaseAEntry : ConstraintInfo :=
  ⟨[some "a"], none, false, true, none, false, false, none, none, none⟩

/-- Witness for C2 at the catalog above: the merged map keeps the
constraint entry for uq_1 even though an index of the same name is
discovered. -/
theorem get_constraints_merge_precedence_witness :
    ∃ d, get_constraints uqDemoCat "tenantX" "t1" = .ok d
      ∧ (d.map Prod.fst).Nodup
      ∧ (∀ n, (pyLookup [("uq_1", uqPhaseAEntry)] n).isSome →
          pyLookup d n = pyLookup [("uq_1", uqPhaseAEntry)] n)
      ∧ (∀ n e, pyLookup d n = some e →
          pyLookup [("uq_1", uqPhaseAEntry)] n = some e
            ∨ (pyLookup [("uq_1", uqPhaseAEntry)] n = none
                ∧ ∃ r ∈ phaseBRows uqDemoCat "t1", r.indexname = n
                    ∧ e = phaseBEntry r))
      ∧ (∀ n e, pyLookup [("uq_1", uqPhaseAEntry)] n = some e →
          e.index = false ∧ (e.foreign_key ≠ none →
            ∃ r ∈ phaseARows uqDemoCat "public" "t1", r.conname = n
              ∧ r.contype = "f")) :=
  get_constraints_merge_precedence uqDemoCat "tenantX" "t1"
    [("uq_1", uqPhaseAEntry)] (by rfl)
